import Mathlib

set_option maxRecDepth 100000
set_option linter.unnecessarySeqFocus false

/-!
# Verification of the `fdup` duplicate-file finder (src/main.rs)

Shallow embedding of the traversal-and-hashing core of `fdup`:
the streaming SHA-256 content hasher (`get_file_hash`), the per-directory
walker (`walk_directory`), the queue-driven orchestrator
(`check_duplicates`), and the fingerprint-to-path-list index.

Machine integers are modelled as `Nat` with explicit reduction modulo
`2 ^ 32` where the Rust code computes on `u32` words; file bytes are `Nat`
values below 256; fallible operations return their partial state together
with an error flag, mirroring the fact that the Rust code mutates the
queue and the map through `&mut` references so that mutations made before
a failure persist.
-/

namespace Fdup

/-! ## SHA-256 (the `sha2` crate's digest, embedded concretely) -/

/-- Truncation to a 32-bit word, the wrap-around of `u32` arithmetic. -/
def w32 (n : Nat) : Nat := n % 4294967296

/-- 32-bit right rotation. -/
def rotr (n x : Nat) : Nat := w32 ((x >>> n) ||| (x <<< (32 - n)))

/-- SHA-256 big sigma 0. -/
def bsig0 (x : Nat) : Nat := (rotr 2 x) ^^^ (rotr 13 x) ^^^ (rotr 22 x)

/-- SHA-256 big sigma 1. -/
def bsig1 (x : Nat) : Nat := (rotr 6 x) ^^^ (rotr 11 x) ^^^ (rotr 25 x)

/-- SHA-256 small sigma 0. -/
def ssig0 (x : Nat) : Nat := (rotr 7 x) ^^^ (rotr 18 x) ^^^ (x >>> 3)

/-- SHA-256 small sigma 1. -/
def ssig1 (x : Nat) : Nat := (rotr 17 x) ^^^ (rotr 19 x) ^^^ (x >>> 10)

/-- The 64 SHA-256 round constants (FIPS 180-4, written in decimal). -/
def roundK : List Nat :=
  [1116352408, 1899447441, 3049323471, 3921009573, 961987163,
   1508970993, 2453635748, 2870763221, 3624381080, 310598401,
   607225278, 1426881987, 1925078388, 2162078206, 2614888103,
   3248222580, 3835390401, 4022224774, 264347078, 604807628,
   770255983, 1249150122, 1555081692, 1996064986, 2554220882,
   2821834349, 2952996808, 3210313671, 3336571891, 3584528711,
   113926993, 338241895, 666307205, 773529912, 1294757372,
   1396182291, 1695183700, 1986661051, 2177026350, 2456956037,
   2730485921, 2820302411, 3259730800, 3345764771, 3516065817,
   3600352804, 4094571909, 275423344, 430227734, 506948616,
   659060556, 883997877, 958139571, 1322822218, 1537002063,
   1747873779, 1955562222, 2024104815, 2227730452, 2361852424,
   2428436474, 2756734187, 3204031479, 3329325298]

/-- The SHA-256 initial hash value (FIPS 180-4, written in decimal). -/
def hInit : List Nat :=
  [1779033703, 3144134277, 1013904242, 2773480762,
   1359893119, 2600822924, 528734635, 1541459225]

/-- Big-endian 8-byte encoding of a length (the bit-length field of the padding). -/
def lenBytes (n : Nat) : List Nat :=
  [(n >>> 56) % 256, (n >>> 48) % 256, (n >>> 40) % 256, (n >>> 32) % 256,
   (n >>> 24) % 256, (n >>> 16) % 256, (n >>> 8) % 256, n % 256]

/-- SHA-256 message padding: append `0x80`, zeros to 56 mod 64, then the
bit length as 8 big-endian bytes. -/
def padMessage (msg : List Nat) : List Nat :=
  msg ++ 128 :: List.replicate ((64 - (msg.length + 9) % 64) % 64) 0 ++ lenBytes (8 * msg.length)

/-- Group a byte list into big-endian 32-bit words (drops an incomplete tail;
padded messages have length a multiple of 4). -/
def wordsOfBytes : List Nat → List Nat
  | b0 :: b1 :: b2 :: b3 :: rest =>
      ((b0 <<< 24) ||| (b1 <<< 16) ||| (b2 <<< 8) ||| b3) :: wordsOfBytes rest
  | _ => []

/-- Split a list into consecutive chunks of at most `n` elements.  The fuel
argument makes the recursion structural; any fuel at least the list's
length is enough when `0 < n`. -/
def chunksFuel (n : Nat) : Nat → List α → List (List α)
  | _, [] => []
  | 0, _ :: _ => []
  | fuel + 1, x :: xs => (x :: xs).take n :: chunksFuel n fuel ((x :: xs).drop n)

/-- Chunks of at most `n` elements, with just enough fuel. -/
def chunks (n : Nat) (l : List α) : List (List α) := chunksFuel n l.length l

/-- Extend a 16-word message block by `n` further schedule words. -/
def extendW : List Nat → Nat → List Nat
  | ws, 0 => ws
  | ws, n + 1 =>
      let i := ws.length
      extendW (ws ++ [w32 (ssig1 (ws.getD (i - 2) 0) + ws.getD (i - 7) 0 +
        ssig0 (ws.getD (i - 15) 0) + ws.getD (i - 16) 0)]) n

/-- The eight working registers of the compression function. -/
structure Regs where
  ra : Nat
  rb : Nat
  rc : Nat
  rd : Nat
  re : Nat
  rf : Nat
  rg : Nat
  rh : Nat

/-- One SHA-256 compression round with round constant `k` and schedule word `w`. -/
def round (r : Regs) (k w : Nat) : Regs :=
  let t1 := w32 (r.rh + bsig1 r.re + ((r.re &&& r.rf) ^^^ ((r.re ^^^ 4294967295) &&& r.rg)) + k + w)
  let t2 := w32 (bsig0 r.ra + ((r.ra &&& r.rb) ^^^ (r.ra &&& r.rc) ^^^ (r.rb &&& r.rc)))
  ⟨w32 (t1 + t2), r.ra, r.rb, r.rc, w32 (r.rd + t1), r.re, r.rf, r.rg⟩

/-- Compress one 16-word message block into the running hash value. -/
def compressBlock (h : List Nat) (block : List Nat) : List Nat :=
  let ws := extendW block 48
  let r0 : Regs := ⟨h.getD 0 0, h.getD 1 0, h.getD 2 0, h.getD 3 0,
                    h.getD 4 0, h.getD 5 0, h.getD 6 0, h.getD 7 0⟩
  let r := (roundK.zip ws).foldl (fun r kw => round r kw.1 kw.2) r0
  [w32 (h.getD 0 0 + r.ra), w32 (h.getD 1 0 + r.rb), w32 (h.getD 2 0 + r.rc),
   w32 (h.getD 3 0 + r.rd), w32 (h.getD 4 0 + r.re), w32 (h.getD 5 0 + r.rf),
   w32 (h.getD 6 0 + r.rg), w32 (h.getD 7 0 + r.rh)]

/-- Big-endian byte expansion of a 32-bit word. -/
def bytesOfWord (w : Nat) : List Nat :=
  [(w >>> 24) % 256, (w >>> 16) % 256, (w >>> 8) % 256, w % 256]

/-- SHA-256 of a byte sequence: the 32-byte digest. -/
def sha256 (msg : List Nat) : List Nat :=
  let padded := padMessage msg
  let blocks := chunks 64 padded
  let hs := blocks.foldl (fun h b => compressBlock h (wordsOfBytes b)) hInit
  (hs.map bytesOfWord).flatten

/-! ## The digest-to-string rendering of `get_file_hash` (main.rs line 135)

The Rust code renders each digest byte with `format!("{:x}", byte)` and
joins the pieces with the empty separator.  `{:x}` prints the minimal
number of lowercase hex digits, with no leading-zero padding. -/

/-- `format!("{:x}", b)` for a byte: minimal lowercase hex digits, no padding. -/
def hexByte (b : Nat) : String := String.mk (Nat.toDigits 16 b)

/-- `digest.map(|byte| format!("{:x}", byte)).join("")`. -/
def renderDigest (bytes : List Nat) : String := String.join (bytes.map hexByte)

/-! ## `get_file_hash` (main.rs lines 124-136)

The function opens the file and repeatedly reads into a 4096-byte buffer,
feeding each chunk (`&buffer[..read_bytes]`) to the incremental hasher;
when `read` returns 0 it finalizes and renders the digest.  The `sha2`
incremental interface absorbs exactly the concatenation of the updates,
so the hasher state is embedded as the list of absorbed bytes. -/

/-- `hasher.update(chunk)`: the incremental digest absorbs the chunk's bytes. -/
def hasherUpdate (acc : List Nat) (chunk : List Nat) : List Nat := acc ++ chunk

/-- `hasher.finalize()` followed by the per-byte hex rendering. -/
def hasherFinal (acc : List Nat) : String := renderDigest (sha256 acc)

/-- `get_file_hash` on a readable file with the given byte contents:
the 4096-byte read loop feeding the incremental hasher. -/
def get_file_hash (content : List Nat) : String :=
  hasherFinal ((chunks 4096 content).foldl hasherUpdate [])

/-- Modelled from the spec: the naive whole-file variant the spec contrasts
with — hash the file's entire byte contents in one step and render. -/
def wholeFileHash (content : List Nat) : String := renderDigest (sha256 content)

/-! ## The filesystem model

A directory tree as observed through the system calls the program makes.
`file` carries its hidden-attribute bit, whether `metadata()` succeeds,
and `some bytes` when the open-and-read loop of `get_file_hash` succeeds
on it (`none` when it fails).  `dir` carries `some listing` when
`read_dir` succeeds on it and `none` when it fails (permission denied,
vanished).  `broken` is an `Err` item produced by the `ReadDir` iterator
itself, which `.flatten()` silently drops. -/

inductive FSTree where
  | file (name : String) (hidden : Bool) (metaOk : Bool) (content : Option (List Nat))
  | dir (name : String) (hidden : Bool) (metaOk : Bool) (listing : Option (List FSTree))
  | broken

mutual

/-- Number of nodes of a tree; the fuel measure of the work queue. -/
def sizeT : FSTree → Nat
  | .file _ _ _ _ => 1
  | .broken => 1
  | .dir _ _ _ none => 1
  | .dir _ _ _ (some l) => 1 + sizeL l

/-- Total size of a listing. -/
def sizeL : List FSTree → Nat
  | [] => 0
  | t :: ts => sizeT t + sizeL ts

end

mutual

/-- Every file and directory reachable in the tree is readable:
every `file` has `some` content and every `dir` has `some` listing. -/
def cleanb : FSTree → Bool
  | .file _ _ _ c => c.isSome
  | .broken => false
  | .dir _ _ _ none => false
  | .dir _ _ _ (some l) => cleanLb l

/-- `cleanb` on every entry of a listing. -/
def cleanLb : List FSTree → Bool
  | [] => true
  | t :: ts => cleanb t && cleanLb ts

end

/-- The path of an entry named `n` inside the directory at path `p`. -/
def childPath (p n : String) : String := p ++ "/" ++ n

/-! ## The Duplicate Index (`HashMap<String, Vec<PathBuf>>`)

Embedded as an association list in key-insertion order;
`record` is `file_hash_map.entry(hash).or_insert(Vec::new()).push(path)`
(main.rs lines 115-116). -/

/-- Fingerprint-to-path-list mapping. -/
abbrev Index := List (String × List String)

/-- `entry(fp).or_insert(vec![]).push(p)`. -/
def record : Index → String → String → Index
  | [], fp, p => [(fp, [p])]
  | (k, ps) :: rest, fp, p =>
      if k = fp then (k, ps ++ [p]) :: rest else (k, ps) :: record rest fp p

/-- Lookup of a fingerprint's path list. -/
def lookupIdx : Index → String → Option (List String)
  | [], _ => none
  | (k, ps) :: rest, fp => if k = fp then some ps else lookupIdx rest fp

/-- All paths recorded in the index, in list order. -/
def pathsOfIdx (idx : Index) : List String := (idx.map Prod.snd).flatten

/-- How many times a path occurs in the whole index, all lists summed. -/
def countPathIdx (idx : Index) (p : String) : Nat :=
  (idx.map (fun kv => kv.2.count p)).sum

/-- Record a run of hashed files `(path, content)` in discovery order. -/
def recordAll (idx : Index) (files : List (String × List Nat)) : Index :=
  files.foldl (fun i pc => record i (get_file_hash pc.2) pc.1) idx

/-! ## `walk_directory` (main.rs lines 93-121)

For each item of the directory iterator (with `Err` items dropped by
`flatten`): if `metadata()` succeeds and reports the hidden attribute and
`include-hidden` was not passed, `continue`; else if the item is a
directory, push it to the back of the visit queue; else hash it — a hash
failure propagates with `?`, aborting the whole walk (the queue and map
mutations made so far persist, since they go through `&mut`). -/

/-- The `continue` condition of main.rs lines 105-108. -/
def skipEntry (ih : Bool) : FSTree → Bool
  | .file _ h m _ => m && h && !ih
  | .dir _ h m _ => m && h && !ih
  | .broken => false

/-- The body of the `for dir_item in directory_iterator.flatten()` loop.
Returns the queue, the index, and whether the walk aborted with `Err`. -/
def walkEntries (ih : Bool) (p : String) :
    List FSTree → List (String × FSTree) → Index → List (String × FSTree) × Index × Bool
  | [], q, idx => (q, idx, false)
  | .broken :: rest, q, idx => walkEntries ih p rest q idx
  | .file n h m c :: rest, q, idx =>
      if m && h && !ih then walkEntries ih p rest q idx
      else
        match c with
        | none => (q, idx, true)
        | some bytes =>
            walkEntries ih p rest q (record idx (get_file_hash bytes) (childPath p n))
  | .dir n h m l :: rest, q, idx =>
      if m && h && !ih then walkEntries ih p rest q idx
      else walkEntries ih p rest (q ++ [(childPath p n, .dir n h m l)]) idx

/-- `walk_directory(path, to_visit_queue, file_hash_map, config)`:
`read_dir` fails immediately on an unreadable directory or a non-directory,
otherwise the entry loop runs. -/
def walk_directory (ih : Bool) (p : String) (t : FSTree)
    (q : List (String × FSTree)) (idx : Index) :
    List (String × FSTree) × Index × Bool :=
  match t with
  | .dir _ _ _ (some l) => walkEntries ih p l q idx
  | _ => (q, idx, true)

/-! ## The orchestrator loop of `check_duplicates` (main.rs lines 23-50) -/

/-- Total tree size held in the queue; fuel bound for the loop. -/
def sizeQ : List (String × FSTree) → Nat
  | [] => 0
  | (_, t) :: rest => sizeT t + sizeQ rest

/-- The `while !directory_queue.is_empty()` loop, fuelled: pop the front,
walk it (the rest of the queue receives the pushed subdirectories), emit a
diagnostic naming the directory when the walk failed, continue.
Any fuel at least `sizeQ q` is enough. -/
def runQueueFuel (ih : Bool) : Nat → List (String × FSTree) → Index → List String →
    Index × List String
  | _, [], idx, ds => (idx, ds)
  | 0, _ :: _, idx, ds => (idx, ds)
  | fuel + 1, (p, t) :: rest, idx, ds =>
      match walk_directory ih p t rest idx with
      | (q', idx', err) => runQueueFuel ih fuel q' idx' (if err then ds ++ [p] else ds)

/-- The queue loop with just enough fuel. -/
def runQueue (ih : Bool) (q : List (String × FSTree)) (idx : Index) (ds : List String) :
    Index × List String :=
  runQueueFuel ih (sizeQ q) q idx ds

/-- `check_duplicates`: walk the root once; on root failure emit a diagnostic
and stop; otherwise drain the queue only when `recurse` was passed.
Returns the index together with the diagnostics, in emission order. -/
def check_duplicates (recurse ih : Bool) (rootPath : String) (root : FSTree) :
    Index × List String :=
  match walk_directory ih rootPath root [] [] with
  | (_, idx, true) => (idx, [rootPath])
  | (q, idx, false) => if recurse then runQueue ih q idx [] else (idx, [])

/-- `print_results` observables (main.rs lines 53-71): the unique-file count
`file_hashmap.len()` and whether any duplicate group was found. -/
def printSummary (idx : Index) : Nat × Bool :=
  (idx.length, idx.any (fun kv => kv.2.length > 1))

/-! ## Derived enumerations used to state the traversal properties -/

/-- The eligible, readable files of one directory listing, with their paths
and contents, in listing order. -/
def filesOfListing (ih : Bool) (p : String) : List FSTree → List (String × List Nat)
  | [] => []
  | .file n h m (some c) :: rest =>
      if m && h && !ih then filesOfListing ih p rest
      else (childPath p n, c) :: filesOfListing ih p rest
  | _ :: rest => filesOfListing ih p rest

/-- The eligible subdirectories of one listing, as queue entries, in order. -/
def dirsOfListing (ih : Bool) (p : String) : List FSTree → List (String × FSTree)
  | [] => []
  | .dir n h m l :: rest =>
      if m && h && !ih then dirsOfListing ih p rest
      else (childPath p n, .dir n h m l) :: dirsOfListing ih p rest
  | _ :: rest => dirsOfListing ih p rest

/-- Every file entry of the listing that is not skipped by the hidden filter
has readable content, so walking the listing cannot abort. -/
def filesOkb (ih : Bool) : List FSTree → Bool
  | [] => true
  | .file _ h m none :: rest => (m && h && !ih) && filesOkb ih rest
  | _ :: rest => filesOkb ih rest

/-- Every queue entry is a readable directory whose listing is clean. -/
def cleanDirQb (q : List (String × FSTree)) : Bool :=
  q.all (fun pt =>
    match pt.2 with
    | .dir _ _ _ (some l) => cleanLb l
    | _ => false)

/-- The `(path, content)` pairs of all eligible files produced by draining
the queue, in breadth-first discovery order (fuelled like the loop). -/
def bfsFilesFuel (ih : Bool) : Nat → List (String × FSTree) → List (String × List Nat)
  | _, [] => []
  | 0, _ :: _ => []
  | fuel + 1, (p, t) :: rest =>
      match t with
      | .dir _ _ _ (some l) =>
          filesOfListing ih p l ++ bfsFilesFuel ih fuel (rest ++ dirsOfListing ih p l)
      | _ => bfsFilesFuel ih fuel rest

/-- Breadth-first file discovery with just enough fuel. -/
def bfsFiles (ih : Bool) (q : List (String × FSTree)) : List (String × List Nat) :=
  bfsFilesFuel ih (sizeQ q) q

/-- The discovery-ordered file list of a recursive run rooted at a readable
directory with listing `l` at path `rp`: the root's own eligible files
first, then the files found by draining the subdirectory queue. -/
def bfsRun (ih : Bool) (rp : String) (l : List FSTree) : List (String × List Nat) :=
  filesOfListing ih rp l ++ bfsFiles ih (dirsOfListing ih rp l)

mutual

/-- Depth-first enumeration of every eligible readable file reachable from
one entry of the directory at path `p`, by unlimited descent. -/
def reachEntry (ih : Bool) (p : String) : FSTree → List (String × List Nat)
  | .file n h m (some c) => if m && h && !ih then [] else [(childPath p n, c)]
  | .file _ _ _ none => []
  | .dir n h m (some l) =>
      if m && h && !ih then [] else reachListing ih (childPath p n) l
  | .dir _ _ _ none => []
  | .broken => []

/-- Depth-first enumeration over a whole listing. -/
def reachListing (ih : Bool) (p : String) : List FSTree → List (String × List Nat)
  | [] => []
  | t :: ts => reachEntry ih p t ++ reachListing ih p ts

end

/-- The files reachable from an already-enqueued directory (the hidden filter
was applied when it was discovered, so it is not re-applied here). -/
def reachFrom (ih : Bool) (pt : String × FSTree) : List (String × List Nat) :=
  match pt.2 with
  | .dir _ _ _ (some l) => reachListing ih pt.1 l
  | _ => []

/-- The keys of the index, in insertion order. -/
def keysOfIdx (idx : Index) : List String := idx.map Prod.fst

/-- The paths of the discovered files whose fingerprint is `fp`,
in discovery order. -/
def groupPaths (fp : String) (files : List (String × List Nat)) : List String :=
  (files.filter (fun pc => get_file_hash pc.2 = fp)).map Prod.fst

/-! ## Big-step relation of the orchestrator (for the determinism claim)

`LoopRel` relates a queue, an index and the diagnostics emitted so far to
the final outcome of the `while` loop of `check_duplicates`; `RunRel`
wraps the root walk around it, mirroring main.rs lines 29-48. -/

inductive LoopRel (ih : Bool) :
    List (String × FSTree) → Index → List String → Index × List String → Prop where
  | done (idx : Index) (ds : List String) : LoopRel ih [] idx ds (idx, ds)
  | stepOk (p : String) (t : FSTree) (rest : List (String × FSTree)) (idx : Index)
      (ds : List String) (q' : List (String × FSTree)) (idx' : Index)
      (out : Index × List String) :
      walk_directory ih p t rest idx = (q', idx', false) →
      LoopRel ih q' idx' ds out → LoopRel ih ((p, t) :: rest) idx ds out
  | stepErr (p : String) (t : FSTree) (rest : List (String × FSTree)) (idx : Index)
      (ds : List String) (q' : List (String × FSTree)) (idx' : Index)
      (out : Index × List String) :
      walk_directory ih p t rest idx = (q', idx', true) →
      LoopRel ih q' idx' (ds ++ [p]) out → LoopRel ih ((p, t) :: rest) idx ds out

inductive RunRel (recurse ih : Bool) (rp : String) (t : FSTree) :
    Index × List String → Prop where
  | rootFail (q : List (String × FSTree)) (idx : Index) :
      walk_directory ih rp t [] [] = (q, idx, true) → RunRel recurse ih rp t (idx, [rp])
  | noRecurse (q : List (String × FSTree)) (idx : Index) :
      recurse = false → walk_directory ih rp t [] [] = (q, idx, false) →
      RunRel recurse ih rp t (idx, [])
  | withRecurse (q : List (String × FSTree)) (idx : Index) (out : Index × List String) :
      recurse = true → walk_directory ih rp t [] [] = (q, idx, false) →
      LoopRel ih q idx [] out → RunRel recurse ih rp t out

/-! ## Concrete trees used by the witnesses and counterexamples -/

/-- The bytes of the string `hello`. -/
def helloBytes : List Nat := [104, 101, 108, 108, 111]

/-- The bytes of the string `world`. -/
def worldBytes : List Nat := [119, 111, 114, 108, 100]

/-- The scenario of spec section 8: root `/r` with `a.txt` = `b.txt` =
`hello`, `c.txt` = `world`, and `sub/d.txt` = `hello`. -/
def demoListing : List FSTree :=
  [ .file "a.txt" false true (some helloBytes)
  , .file "b.txt" false true (some helloBytes)
  , .file "c.txt" false true (some worldBytes)
  , .dir "sub" false true (some [.file "d.txt" false true (some helloBytes)])]

/-- The section-8 scenario tree. -/
def demoTree : FSTree := .dir "r" false true (some demoListing)

/-- A listing whose first entry fails mid-hash while its second entry is a
perfectly readable file. -/
def abortListing : List FSTree :=
  [.file "f1" false true none, .file "f2" false true (some helloBytes)]

/-- A readable directory containing `abortListing`. -/
def abortTree : FSTree := .dir "r" false true (some abortListing)

/-- A 32-byte digest starting `0x01 0x23` followed by thirty `0xab` bytes. -/
def collidingDigestA : List Nat := 1 :: 35 :: List.replicate 30 171

/-- A 32-byte digest starting `0x12 0x03` followed by thirty `0xab` bytes;
distinct from `collidingDigestA` but rendered identically by the unpadded
per-byte hex formatting. -/
def collidingDigestB : List Nat := 18 :: 3 :: List.replicate 30 171

/-! # Theorems -/

/-! ## Size and fuel bookkeeping -/

theorem sizeT_pos (t : FSTree) : 1 ≤ sizeT t := by
  cases t with
  | file n h m c => simp [sizeT]
  | broken => simp [sizeT]
  | dir n h m l => cases l <;> simp [sizeT]

theorem sizeQ_append (a b : List (String × FSTree)) :
    sizeQ (a ++ b) = sizeQ a + sizeQ b := by
  induction a with
  | nil => simp [sizeQ]
  | cons x rest ih => cases x; simp [sizeQ, ih]; omega

theorem walkEntries_sizeQ (ih : Bool) (p : String) :
    ∀ (l : List FSTree) (q : List (String × FSTree)) (idx : Index),
    sizeQ (walkEntries ih p l q idx).1 ≤ sizeQ q + sizeL l := by
  intro l
  induction l with
  | nil => intro q idx; simp [walkEntries, sizeL]
  | cons t rest ihl =>
    intro q idx
    cases t with
    | broken =>
        have := ihl q idx
        simp only [walkEntries, sizeL, sizeT]
        omega
    | file n h m c =>
        cases hc : (m && h && !ih) with
        | true =>
            have := ihl q idx
            simp only [walkEntries, hc, if_true, sizeL, sizeT]
            omega
        | false =>
            cases c with
            | none =>
                simp only [walkEntries, hc, Bool.false_eq_true, if_false, sizeL, sizeT]
                omega
            | some bytes =>
                have := ihl q (record idx (get_file_hash bytes) (childPath p n))
                simp only [walkEntries, hc, Bool.false_eq_true, if_false, sizeL, sizeT]
                omega
    | dir n h m li =>
        cases hc : (m && h && !ih) with
        | true =>
            have := ihl q idx
            have h1 : sizeT (.dir n h m li) ≥ 1 := sizeT_pos _
            simp only [walkEntries, hc, if_true, sizeL]
            omega
        | false =>
            have := ihl (q ++ [(childPath p n, .dir n h m li)]) idx
            have h2 : sizeQ (q ++ [(childPath p n, .dir n h m li)]) =
                sizeQ q + sizeT (.dir n h m li) := by
              simp [sizeQ_append, sizeQ]
            simp only [walkEntries, hc, Bool.false_eq_true, if_false, sizeL]
            omega

theorem walk_directory_sizeQ (ih : Bool) (p : String) (t : FSTree)
    (q : List (String × FSTree)) (idx : Index) :
    sizeQ (walk_directory ih p t q idx).1 + 1 ≤ sizeQ q + sizeT t := by
  cases t with
  | file n h m c => simp [walk_directory, sizeT]
  | broken => simp [walk_directory, sizeT]
  | dir n h m li =>
      cases li with
      | none => simp [walk_directory, sizeT]
      | some l =>
          have := walkEntries_sizeQ ih p l q idx
          simp only [walk_directory, sizeT]
          omega

theorem runQueueFuel_congr (ih : Bool) :
    ∀ (f1 f2 : Nat) (q : List (String × FSTree)) (idx : Index) (ds : List String),
    sizeQ q ≤ f1 → sizeQ q ≤ f2 →
    runQueueFuel ih f1 q idx ds = runQueueFuel ih f2 q idx ds := by
  intro f1
  induction f1 with
  | zero =>
      intro f2 q idx ds h1 h2
      cases q with
      | nil => cases f2 <;> simp [runQueueFuel]
      | cons x rest =>
          exfalso
          cases x with
          | mk p t => have := sizeT_pos t; simp [sizeQ] at h1; omega
  | succ f ihf =>
      intro f2 q idx ds h1 h2
      cases q with
      | nil => cases f2 <;> simp [runQueueFuel]
      | cons x rest =>
          cases x with
          | mk p t =>
              cases f2 with
              | zero => exfalso; have := sizeT_pos t; simp [sizeQ] at h2; omega
              | succ f2' =>
                  have hw := walk_directory_sizeQ ih p t rest idx
                  rcases hwd : walk_directory ih p t rest idx with ⟨q', idx', err⟩
                  rw [hwd] at hw
                  simp only [] at hw
                  simp only [sizeQ] at h1 h2
                  simp only [runQueueFuel, hwd]
                  exact ihf f2' q' idx' _ (by omega) (by omega)

/-! ## Walking one directory listing -/

theorem walkEntries_skip (ih : Bool) (p : String) (e : FSTree)
    (hsk : skipEntry ih e = true) (l : List FSTree) (q : List (String × FSTree))
    (idx : Index) :
    walkEntries ih p (e :: l) q idx = walkEntries ih p l q idx := by
  cases e with
  | broken => simp [skipEntry] at hsk
  | file n h m c => simp only [skipEntry] at hsk; simp [walkEntries, hsk]
  | dir n h m li => simp only [skipEntry] at hsk; simp [walkEntries, hsk]

theorem walkEntries_append (ih : Bool) (p : String) :
    ∀ (a b : List FSTree) (q : List (String × FSTree)) (idx : Index),
    walkEntries ih p (a ++ b) q idx =
      (match walkEntries ih p a q idx with
       | (q', idx', false) => walkEntries ih p b q' idx'
       | (q', idx', true) => (q', idx', true)) := by
  intro a
  induction a with
  | nil => intro b q idx; simp [walkEntries]
  | cons t rest iha =>
      intro b q idx
      cases t with
      | broken =>
          simp only [List.cons_append, walkEntries]
          exact iha b q idx
      | file n h m c =>
          cases hc : (m && h && !ih) with
          | true =>
              simp only [List.cons_append, walkEntries, hc, if_true]
              exact iha b q idx
          | false =>
              cases c with
              | none => simp [walkEntries, hc]
              | some bytes =>
                  simp only [List.cons_append, walkEntries, hc, Bool.false_eq_true, if_false]
                  exact iha b q _
      | dir n h m li =>
          cases hc : (m && h && !ih) with
          | true =>
              simp only [List.cons_append, walkEntries, hc, if_true]
              exact iha b q idx
          | false =>
              simp only [List.cons_append, walkEntries, hc, Bool.false_eq_true, if_false]
              exact iha b _ idx

theorem walkEntries_ok (ih : Bool) (p : String) :
    ∀ (l : List FSTree) (q : List (String × FSTree)) (idx : Index),
    filesOkb ih l = true →
    walkEntries ih p l q idx =
      (q ++ dirsOfListing ih p l, recordAll idx (filesOfListing ih p l), false) := by
  intro l
  induction l with
  | nil => intro q idx _; simp [walkEntries, dirsOfListing, filesOfListing, recordAll]
  | cons t rest ihl =>
      intro q idx hok
      cases t with
      | broken =>
          simp only [filesOkb] at hok
          simp only [walkEntries, dirsOfListing, filesOfListing]
          exact ihl q idx hok
      | file n h m c =>
          cases c with
          | none =>
              simp only [filesOkb, Bool.and_eq_true] at hok
              simp only [walkEntries, hok.1, if_true, dirsOfListing, filesOfListing]
              exact ihl q idx hok.2
          | some bytes =>
              simp only [filesOkb] at hok
              cases hc : (m && h && !ih) with
              | true =>
                  simp only [walkEntries, hc, if_true, dirsOfListing, filesOfListing]
                  exact ihl q idx hok
              | false =>
                  simp only [walkEntries, hc, Bool.false_eq_true, if_false,
                    dirsOfListing, filesOfListing, recordAll, List.foldl_cons]
                  exact ihl q _ hok
      | dir n h m li =>
          simp only [filesOkb] at hok
          cases hc : (m && h && !ih) with
          | true =>
              simp only [walkEntries, hc, if_true, dirsOfListing, filesOfListing]
              exact ihl q idx hok
          | false =>
              simp only [walkEntries, hc, Bool.false_eq_true, if_false,
                dirsOfListing, filesOfListing]
              rw [ihl _ idx hok]
              simp [List.append_assoc]

theorem filesOkb_of_cleanLb (ih : Bool) :
    ∀ l : List FSTree, cleanLb l = true → filesOkb ih l = true := by
  intro l
  induction l with
  | nil => simp [filesOkb]
  | cons t rest ihl =>
      intro hcl
      simp only [cleanLb, Bool.and_eq_true] at hcl
      cases t with
      | broken => simp [cleanb] at hcl
      | file n h m c =>
          cases c with
          | some _ => simp only [filesOkb]; exact ihl hcl.2
          | none => simp [cleanb] at hcl
      | dir n h m li => simp only [filesOkb]; exact ihl hcl.2

theorem cleanDirQb_dirsOfListing (ih : Bool) (p : String) :
    ∀ l : List FSTree, cleanLb l = true → cleanDirQb (dirsOfListing ih p l) = true := by
  intro l
  induction l with
  | nil => simp [dirsOfListing, cleanDirQb]
  | cons t rest ihl =>
      intro hcl
      simp only [cleanLb, Bool.and_eq_true] at hcl
      cases t with
      | broken => simp only [dirsOfListing]; exact ihl hcl.2
      | file n h m c => simp only [dirsOfListing]; exact ihl hcl.2
      | dir n h m li =>
          cases li with
          | none => simp [cleanb] at hcl
          | some l' =>
              have hcl' : cleanLb l' = true := by simpa [cleanb] using hcl.1
              cases hc : (m && h && !ih) with
              | true => simp only [dirsOfListing, hc, if_true]; exact ihl hcl.2
              | false =>
                  simp only [dirsOfListing, hc, Bool.false_eq_true, if_false,
                    cleanDirQb, List.all_cons, Bool.and_eq_true]
                  refine ⟨by simpa using hcl', ?_⟩
                  have := ihl hcl.2
                  simpa [cleanDirQb] using this

theorem sizeQ_dirsOfListing (ih : Bool) (p : String) :
    ∀ l : List FSTree, sizeQ (dirsOfListing ih p l) ≤ sizeL l := by
  intro l
  induction l with
  | nil => simp [dirsOfListing, sizeQ, sizeL]
  | cons t rest ihl =>
      have hpos := sizeT_pos t
      cases t with
      | broken => simp only [dirsOfListing, sizeL]; omega
      | file n h m c => simp only [dirsOfListing, sizeL]; omega
      | dir n h m li =>
          cases hc : (m && h && !ih) with
          | true => simp only [dirsOfListing, hc, if_true, sizeL]; omega
          | false =>
              simp only [dirsOfListing, hc, Bool.false_eq_true, if_false, sizeQ, sizeL]
              omega

theorem recordAll_append (idx : Index) (a b : List (String × List Nat)) :
    recordAll idx (a ++ b) = recordAll (recordAll idx a) b := by
  simp [recordAll, List.foldl_append]

theorem runQueueFuel_clean (ih : Bool) :
    ∀ (fuel : Nat) (q : List (String × FSTree)) (idx : Index) (ds : List String),
    sizeQ q ≤ fuel → cleanDirQb q = true →
    runQueueFuel ih fuel q idx ds = (recordAll idx (bfsFilesFuel ih fuel q), ds) := by
  intro fuel
  induction fuel with
  | zero =>
      intro q idx ds h1 _
      cases q with
      | nil => simp [runQueueFuel, bfsFilesFuel, recordAll]
      | cons x rest =>
          exfalso
          cases x with
          | mk p t => have := sizeT_pos t; simp [sizeQ] at h1; omega
  | succ f ihf =>
      intro q idx ds h1 h2
      cases q with
      | nil => simp [runQueueFuel, bfsFilesFuel, recordAll]
      | cons x rest =>
          obtain ⟨p, t⟩ := x
          simp only [cleanDirQb, List.all_cons, Bool.and_eq_true] at h2
          cases t with
          | broken => exact absurd h2.1 (by simp)
          | file n h m c => exact absurd h2.1 (by simp)
          | dir n h m li =>
              cases li with
              | none => exact absurd h2.1 (by simp)
              | some l =>
                  have hcl : cleanLb l = true := by simpa using h2.1
                  have hok := filesOkb_of_cleanLb ih l hcl
                  have hwe := walkEntries_ok ih p l rest idx hok
                  simp only [runQueueFuel, walk_directory, hwe, bfsFilesFuel]
                  have hsz : sizeQ (rest ++ dirsOfListing ih p l) ≤ f := by
                    have hd := sizeQ_dirsOfListing ih p l
                    rw [sizeQ_append]
                    simp only [sizeQ, sizeT] at h1
                    omega
                  have hcq : cleanDirQb (rest ++ dirsOfListing ih p l) = true := by
                    have hdq := cleanDirQb_dirsOfListing ih p l hcl
                    simp only [cleanDirQb, List.all_append, Bool.and_eq_true]
                    exact ⟨by simpa [cleanDirQb] using h2.2, by simpa [cleanDirQb] using hdq⟩
                  rw [ihf _ _ _ hsz hcq]
                  simp [recordAll_append]

theorem check_duplicates_rec_clean (ih : Bool) (rp n : String) (h m : Bool)
    (l : List FSTree) (hcl : cleanLb l = true) :
    check_duplicates true ih rp (.dir n h m (some l)) =
      (recordAll [] (bfsRun ih rp l), []) := by
  have hok := filesOkb_of_cleanLb ih l hcl
  have hwe := walkEntries_ok ih rp l [] [] hok
  simp only [check_duplicates, walk_directory, hwe, List.nil_append, if_true, runQueue]
  rw [runQueueFuel_clean ih _ _ _ _ (le_refl _) (cleanDirQb_dirsOfListing ih rp l hcl)]
  simp [bfsRun, bfsFiles, recordAll_append]

theorem check_duplicates_norec (ih : Bool) (rp n : String) (h m : Bool)
    (l : List FSTree) (hok : filesOkb ih l = true) :
    check_duplicates false ih rp (.dir n h m (some l)) =
      (recordAll [] (filesOfListing ih rp l), []) := by
  have hwe := walkEntries_ok ih rp l [] [] hok
  simp [check_duplicates, walk_directory, hwe]

/-! ## The Duplicate Index -/

theorem lookupIdx_record_self (idx : Index) (fp p : String) :
    lookupIdx (record idx fp p) fp = some ((lookupIdx idx fp).getD [] ++ [p]) := by
  induction idx with
  | nil => simp [record, lookupIdx]
  | cons kv rest ih =>
      obtain ⟨k, ps⟩ := kv
      by_cases hk : k = fp
      · subst hk; simp [record, lookupIdx]
      · simp [record, lookupIdx, hk, ih]

theorem lookupIdx_record_other (idx : Index) (fp p k : String) (hne : k ≠ fp) :
    lookupIdx (record idx fp p) k = lookupIdx idx k := by
  induction idx with
  | nil => simp [record, lookupIdx, Ne.symm hne]
  | cons kv rest ih =>
      obtain ⟨k0, ps⟩ := kv
      by_cases hk : k0 = fp
      · subst hk; simp [record, lookupIdx, Ne.symm hne]
      · simp [record, lookupIdx, hk, ih]

theorem groupPaths_cons (fp : String) (p : String) (c : List Nat)
    (rest : List (String × List Nat)) :
    groupPaths fp ((p, c) :: rest) =
      if get_file_hash c = fp then p :: groupPaths fp rest else groupPaths fp rest := by
  by_cases hc : get_file_hash c = fp <;> simp [groupPaths, List.filter_cons, hc]

theorem lookupIdx_recordAll_getD :
    ∀ (files : List (String × List Nat)) (idx : Index) (fp : String),
    (lookupIdx (recordAll idx files) fp).getD [] =
      (lookupIdx idx fp).getD [] ++ groupPaths fp files := by
  intro files
  induction files with
  | nil => intro idx fp; simp [recordAll, groupPaths]
  | cons pc rest ihf =>
      intro idx fp
      obtain ⟨p, c⟩ := pc
      have hstep : recordAll idx ((p, c) :: rest) =
          recordAll (record idx (get_file_hash c) p) rest := rfl
      rw [hstep, ihf, groupPaths_cons]
      by_cases hfp : get_file_hash c = fp
      · subst hfp
        rw [lookupIdx_record_self]
        simp
      · rw [lookupIdx_record_other _ _ _ _ (Ne.symm hfp)]
        simp [hfp]

theorem lookupIdx_recordAll_isSome :
    ∀ (files : List (String × List Nat)) (idx : Index) (fp : String),
    (lookupIdx (recordAll idx files) fp).isSome =
      ((lookupIdx idx fp).isSome || !(groupPaths fp files).isEmpty) := by
  intro files
  induction files with
  | nil => intro idx fp; simp [recordAll, groupPaths]
  | cons pc rest ihf =>
      intro idx fp
      obtain ⟨p, c⟩ := pc
      have hstep : recordAll idx ((p, c) :: rest) =
          recordAll (record idx (get_file_hash c) p) rest := rfl
      rw [hstep, ihf, groupPaths_cons]
      by_cases hfp : get_file_hash c = fp
      · subst hfp
        rw [lookupIdx_record_self]
        simp
      · rw [lookupIdx_record_other _ _ _ _ (Ne.symm hfp)]
        simp [hfp]

theorem lookupIdx_recordAll_of_ne (files : List (String × List Nat)) (fp : String)
    (hne : groupPaths fp files ≠ []) :
    lookupIdx (recordAll [] files) fp = some (groupPaths fp files) := by
  have h1 := lookupIdx_recordAll_getD files [] fp
  have h2 := lookupIdx_recordAll_isSome files [] fp
  simp only [lookupIdx, Option.getD_none, Option.isSome_none, Bool.false_or,
    List.nil_append] at h1 h2
  cases hl : lookupIdx (recordAll [] files) fp with
  | none =>
      rw [hl] at h2
      simp only [Option.isSome_none] at h2
      exact absurd (List.isEmpty_iff.mp (by simpa using h2.symm)) hne
  | some ps =>
      rw [hl] at h1
      simp only [Option.getD_some] at h1
      rw [h1]

theorem lookupIdx_recordAll_of_empty (files : List (String × List Nat)) (fp : String)
    (he : groupPaths fp files = []) :
    lookupIdx (recordAll [] files) fp = none := by
  have h2 := lookupIdx_recordAll_isSome files [] fp
  simp only [lookupIdx, Option.isSome_none, Bool.false_or, he, List.isEmpty_nil,
    Bool.not_true] at h2
  exact Option.not_isSome_iff_eq_none.mp (by simp [h2])

theorem countPathIdx_record (idx : Index) (fp q p : String) :
    countPathIdx (record idx fp q) p =
      countPathIdx idx p + (if q = p then 1 else 0) := by
  induction idx with
  | nil =>
      simp only [record, countPathIdx, List.map_cons, List.map_nil, List.sum_cons,
        List.sum_nil, List.count_singleton']
      by_cases hq : q = p <;> simp [hq]
  | cons kv rest ih =>
      obtain ⟨k, ps⟩ := kv
      by_cases hk : k = fp
      · subst hk
        simp only [record, if_true, countPathIdx, List.map_cons, List.sum_cons,
          List.count_append, List.count_singleton']
        by_cases hq : q = p <;> simp [hq] <;> omega
      · simp only [record, hk, if_false, countPathIdx, List.map_cons, List.sum_cons]
        have := ih
        simp only [countPathIdx] at this
        omega

theorem countPathIdx_recordAll :
    ∀ (files : List (String × List Nat)) (idx : Index) (p : String),
    countPathIdx (recordAll idx files) p =
      countPathIdx idx p + (files.map Prod.fst).count p := by
  intro files
  induction files with
  | nil => intro idx p; simp [recordAll, countPathIdx]
  | cons pc rest ihf =>
      intro idx p
      obtain ⟨p0, c0⟩ := pc
      have hstep : recordAll idx ((p0, c0) :: rest) =
          recordAll (record idx (get_file_hash c0) p0) rest := rfl
      rw [hstep, ihf, countPathIdx_record]
      simp only [List.map_cons, List.count_cons]
      by_cases h0 : p0 = p <;> simp [h0] <;> omega

theorem keysOfIdx_record (idx : Index) (fp p : String) :
    keysOfIdx (record idx fp p) =
      if fp ∈ keysOfIdx idx then keysOfIdx idx else keysOfIdx idx ++ [fp] := by
  induction idx with
  | nil => simp [record, keysOfIdx]
  | cons kv rest ih =>
      obtain ⟨k, ps⟩ := kv
      by_cases hk : k = fp
      · subst hk; simp [record, keysOfIdx]
      · simp only [record, hk, if_false, keysOfIdx, List.map_cons, List.mem_cons]
        rw [show (record rest fp p).map Prod.fst = keysOfIdx (record rest fp p) from rfl, ih]
        by_cases hm : fp ∈ keysOfIdx rest
        · simp only [keysOfIdx] at hm
          simp [keysOfIdx, hm]
        · simp only [keysOfIdx] at hm
          simp [keysOfIdx, hm, Ne.symm hk]

theorem keysNodup_record (idx : Index) (fp p : String)
    (hnd : (keysOfIdx idx).Nodup) : (keysOfIdx (record idx fp p)).Nodup := by
  rw [keysOfIdx_record]
  by_cases hm : fp ∈ keysOfIdx idx
  · simpa [hm] using hnd
  · simp only [hm, if_false]
    exact hnd.append (List.nodup_singleton fp) (by simp [hm])

theorem keysNodup_recordAll :
    ∀ (files : List (String × List Nat)) (idx : Index),
    (keysOfIdx idx).Nodup → (keysOfIdx (recordAll idx files)).Nodup := by
  intro files
  induction files with
  | nil => intro idx h; simpa [recordAll] using h
  | cons pc rest ihf =>
      intro idx h
      obtain ⟨p, c⟩ := pc
      exact ihf _ (keysNodup_record idx (get_file_hash c) p h)

theorem mem_pathsOfIdx_iff (idx : Index) (p : String) :
    p ∈ pathsOfIdx idx ↔ 0 < countPathIdx idx p := by
  induction idx with
  | nil => simp [pathsOfIdx, countPathIdx]
  | cons kv rest ih =>
      obtain ⟨k, ps⟩ := kv
      simp only [pathsOfIdx, List.map_cons, List.flatten_cons, List.mem_append,
        countPathIdx, List.sum_cons]
      constructor
      · rintro (hm | hc)
        · have := List.count_pos_iff.mpr hm
          omega
        · have := (ih.mp (by simpa [pathsOfIdx] using hc))
          simp only [countPathIdx] at this
          omega
      · intro hpos
        rcases Nat.lt_or_ge 0 (ps.count p) with h | h
        · exact Or.inl (List.count_pos_iff.mp h)
        · right
          have : 0 < countPathIdx rest p := by simp only [countPathIdx]; omega
          simpa [pathsOfIdx] using ih.mpr this

/-! ## Breadth-first discovery versus unlimited-descent reachability -/

theorem mem_reachListing (ih : Bool) (x : String × List Nat) :
    ∀ (p : String) (l : List FSTree),
    x ∈ reachListing ih p l ↔
      x ∈ filesOfListing ih p l ∨ ∃ pt ∈ dirsOfListing ih p l, x ∈ reachFrom ih pt := by
  intro p l
  induction l with
  | nil => simp [reachListing, filesOfListing, dirsOfListing]
  | cons t rest ihl =>
      cases t with
      | broken =>
          simpa [reachListing, reachEntry, filesOfListing, dirsOfListing] using ihl
      | file n h m c =>
          cases c with
          | none =>
              simpa [reachListing, reachEntry, filesOfListing, dirsOfListing] using ihl
          | some bytes =>
              cases hc : (m && h && !ih) with
              | true =>
                  simpa [reachListing, reachEntry, hc, filesOfListing, dirsOfListing]
                    using ihl
              | false =>
                  simp only [reachListing, reachEntry, hc, Bool.false_eq_true, if_false,
                    filesOfListing, dirsOfListing, List.singleton_append, List.mem_cons]
                  rw [ihl]
                  tauto
      | dir n h m li =>
          cases hc : (m && h && !ih) with
          | true =>
              cases li <;>
                simpa [reachListing, reachEntry, hc, filesOfListing, dirsOfListing]
                  using ihl
          | false =>
              cases li with
              | none =>
                  simp only [reachListing, reachEntry, hc, Bool.false_eq_true, if_false,
                    List.nil_append, filesOfListing, dirsOfListing, List.mem_cons]
                  rw [ihl]
                  constructor
                  · rintro (hf | ⟨pt, hpt, hx⟩)
                    · exact Or.inl hf
                    · exact Or.inr ⟨pt, Or.inr hpt, hx⟩
                  · rintro (hf | ⟨pt, hpt | hpt, hx⟩)
                    · exact Or.inl hf
                    · subst hpt; simp [reachFrom] at hx
                    · exact Or.inr ⟨pt, hpt, hx⟩
              | some l' =>
                  simp only [reachListing, reachEntry, hc, Bool.false_eq_true, if_false,
                    List.mem_append, filesOfListing, dirsOfListing, List.mem_cons]
                  rw [ihl]
                  constructor
                  · rintro (hr | hf | ⟨pt, hpt, hx⟩)
                    · exact Or.inr ⟨_, Or.inl rfl, by simpa [reachFrom] using hr⟩
                    · exact Or.inl hf
                    · exact Or.inr ⟨pt, Or.inr hpt, hx⟩
                  · rintro (hf | ⟨pt, hpt | hpt, hx⟩)
                    · exact Or.inr (Or.inl hf)
                    · subst hpt; exact Or.inl (by simpa [reachFrom] using hx)
                    · exact Or.inr (Or.inr ⟨pt, hpt, hx⟩)

theorem mem_bfsFilesFuel (ih : Bool) (x : String × List Nat) :
    ∀ (fuel : Nat) (q : List (String × FSTree)),
    sizeQ q ≤ fuel →
    (x ∈ bfsFilesFuel ih fuel q ↔ ∃ pt ∈ q, x ∈ reachFrom ih pt) := by
  intro fuel
  induction fuel with
  | zero =>
      intro q h1
      cases q with
      | nil => simp [bfsFilesFuel]
      | cons x0 rest =>
          exfalso
          obtain ⟨p, t⟩ := x0
          have := sizeT_pos t
          simp [sizeQ] at h1
          omega
  | succ f ihf =>
      intro q h1
      cases q with
      | nil => simp [bfsFilesFuel]
      | cons x0 rest =>
          obtain ⟨p, t⟩ := x0
          cases t with
          | broken =>
              simp only [bfsFilesFuel, List.mem_cons]
              rw [ihf rest (by simp only [sizeQ, sizeT] at h1 ⊢; omega)]
              constructor
              · rintro ⟨pt, hpt, hx⟩; exact ⟨pt, Or.inr hpt, hx⟩
              · rintro ⟨pt, hpt | hpt, hx⟩
                · subst hpt; simp [reachFrom] at hx
                · exact ⟨pt, hpt, hx⟩
          | file n h m c =>
              simp only [bfsFilesFuel, List.mem_cons]
              rw [ihf rest (by simp only [sizeQ, sizeT] at h1 ⊢; omega)]
              constructor
              · rintro ⟨pt, hpt, hx⟩; exact ⟨pt, Or.inr hpt, hx⟩
              · rintro ⟨pt, hpt | hpt, hx⟩
                · subst hpt; simp [reachFrom] at hx
                · exact ⟨pt, hpt, hx⟩
          | dir n h m li =>
              cases li with
              | none =>
                  simp only [bfsFilesFuel, List.mem_cons]
                  rw [ihf rest (by simp only [sizeQ, sizeT] at h1 ⊢; omega)]
                  constructor
                  · rintro ⟨pt, hpt, hx⟩; exact ⟨pt, Or.inr hpt, hx⟩
                  · rintro ⟨pt, hpt | hpt, hx⟩
                    · subst hpt; simp [reachFrom] at hx
                    · exact ⟨pt, hpt, hx⟩
              | some l =>
                  have hsz : sizeQ (rest ++ dirsOfListing ih p l) ≤ f := by
                    have hd := sizeQ_dirsOfListing ih p l
                    rw [sizeQ_append]
                    simp only [sizeQ, sizeT] at h1
                    omega
                  simp only [bfsFilesFuel, List.mem_append, List.mem_cons]
                  rw [ihf _ hsz]
                  constructor
                  · rintro (hf | ⟨pt, hpt, hx⟩)
                    · exact ⟨_, Or.inl rfl, by
                        simp only [reachFrom, mem_reachListing]
                        exact Or.inl hf⟩
                    · rcases List.mem_append.mp hpt with hr | hd
                      · exact ⟨pt, Or.inr hr, hx⟩
                      · exact ⟨_, Or.inl rfl, by
                          simp only [reachFrom, mem_reachListing]
                          exact Or.inr ⟨pt, hd, hx⟩⟩
                  · rintro ⟨pt, hpt | hpt, hx⟩
                    · subst hpt
                      simp only [reachFrom, mem_reachListing] at hx
                      rcases hx with hf | ⟨pt', hpt', hx'⟩
                      · exact Or.inl hf
                      · exact Or.inr ⟨pt', List.mem_append.mpr (Or.inr hpt'), hx'⟩
                    · exact Or.inr ⟨pt, List.mem_append.mpr (Or.inl hpt), hx⟩

/-! ## The streaming hasher -/

theorem foldl_hasherUpdate (cs : List (List Nat)) :
    ∀ acc, cs.foldl hasherUpdate acc = acc ++ cs.flatten := by
  induction cs with
  | nil => intro acc; simp
  | cons c rest ihc =>
      intro acc
      simp [hasherUpdate, ihc, List.append_assoc]

theorem flatten_chunksFuel {α : Type} (n : Nat) (hn : 0 < n) :
    ∀ (fuel : Nat) (l : List α), l.length ≤ fuel → (chunksFuel n fuel l).flatten = l := by
  intro fuel
  induction fuel with
  | zero =>
      intro l h
      cases l with
      | nil => simp [chunksFuel]
      | cons x xs => simp at h
  | succ f ihf =>
      intro l h
      cases l with
      | nil => simp [chunksFuel]
      | cons x xs =>
          simp only [chunksFuel, List.flatten_cons]
          rw [ihf _ (by simp at h ⊢; omega)]
          exact List.take_append_drop n (x :: xs)

theorem flatten_chunks {α : Type} (n : Nat) (hn : 0 < n) (l : List α) :
    (chunks n l).flatten = l :=
  flatten_chunksFuel n hn l.length l (le_refl _)

/-! ## Determinism of the orchestrator relation -/

theorem loopRel_det (ih : Bool) :
    ∀ {q : List (String × FSTree)} {idx : Index} {ds : List String}
      {out1 : Index × List String}, LoopRel ih q idx ds out1 →
    ∀ {out2 : Index × List String}, LoopRel ih q idx ds out2 → out1 = out2 := by
  intro q idx ds out1 h1
  induction h1 with
  | done idx ds =>
      intro out2 h2
      cases h2
      rfl
  | stepOk p t rest idx ds q' idx' out hw _ ihl =>
      intro out2 h2
      cases h2 with
      | stepOk _ _ _ _ _ q2 idx2 _ hw2 hl2 =>
          have h3 := hw.symm.trans hw2
          simp only [Prod.mk.injEq] at h3
          obtain ⟨h4, h5, -⟩ := h3
          subst h4; subst h5
          exact ihl hl2
      | stepErr _ _ _ _ _ q2 idx2 _ hw2 _ =>
          have h3 := hw.symm.trans hw2
          simp at h3
  | stepErr p t rest idx ds q' idx' out hw _ ihl =>
      intro out2 h2
      cases h2 with
      | stepOk _ _ _ _ _ q2 idx2 _ hw2 _ =>
          have h3 := hw.symm.trans hw2
          simp at h3
      | stepErr _ _ _ _ _ q2 idx2 _ hw2 hl2 =>
          have h3 := hw.symm.trans hw2
          simp only [Prod.mk.injEq] at h3
          obtain ⟨h4, h5, -⟩ := h3
          subst h4; subst h5
          exact ihl hl2

theorem loopRel_total (ih : Bool) :
    ∀ (fuel : Nat) (q : List (String × FSTree)) (idx : Index) (ds : List String),
    sizeQ q ≤ fuel → LoopRel ih q idx ds (runQueueFuel ih fuel q idx ds) := by
  intro fuel
  induction fuel with
  | zero =>
      intro q idx ds h
      cases q with
      | nil => exact .done idx ds
      | cons x rest =>
          exfalso
          obtain ⟨p, t⟩ := x
          have := sizeT_pos t
          simp [sizeQ] at h
          omega
  | succ f ihf =>
      intro q idx ds h
      cases q with
      | nil => exact .done idx ds
      | cons x rest =>
          obtain ⟨p, t⟩ := x
          have hb := walk_directory_sizeQ ih p t rest idx
          rcases hwd : walk_directory ih p t rest idx with ⟨q', idx', err⟩
          rw [hwd] at hb
          simp only [] at hb
          simp only [sizeQ] at h
          have hsz : sizeQ q' ≤ f := by omega
          cases err with
          | false =>
              have hrun : runQueueFuel ih (f + 1) ((p, t) :: rest) idx ds =
                  runQueueFuel ih f q' idx' ds := by
                simp [runQueueFuel, hwd]
              rw [hrun]
              exact .stepOk p t rest idx ds q' idx' _ hwd (ihf q' idx' ds hsz)
          | true =>
              have hrun : runQueueFuel ih (f + 1) ((p, t) :: rest) idx ds =
                  runQueueFuel ih f q' idx' (ds ++ [p]) := by
                simp [runQueueFuel, hwd]
              rw [hrun]
              exact .stepErr p t rest idx ds q' idx' _ hwd (ihf q' idx' (ds ++ [p]) hsz)

theorem runRel_total (r ih : Bool) (rp : String) (t : FSTree) :
    RunRel r ih rp t (check_duplicates r ih rp t) := by
  rcases hwd : walk_directory ih rp t [] [] with ⟨q, idx, err⟩
  cases err with
  | true =>
      have hc : check_duplicates r ih rp t = (idx, [rp]) := by
        simp [check_duplicates, hwd]
      rw [hc]
      exact .rootFail q idx hwd
  | false =>
      cases r with
      | false =>
          have hc : check_duplicates false ih rp t = (idx, []) := by
            simp [check_duplicates, hwd]
          rw [hc]
          exact .noRecurse q idx rfl hwd
      | true =>
          have hc : check_duplicates true ih rp t = runQueue ih q idx [] := by
            simp [check_duplicates, hwd, runQueue]
          rw [hc]
          exact .withRecurse q idx _ rfl hwd (loopRel_total ih (sizeQ q) q idx [] (le_refl _))

/-! ## The queue loop step -/

theorem runQueue_cons (ih : Bool) (p : String) (t : FSTree)
    (rest : List (String × FSTree)) (idx : Index) (ds : List String) :
    runQueue ih ((p, t) :: rest) idx ds =
      (match walk_directory ih p t rest idx with
       | (q', idx', err) => runQueue ih q' idx' (if err then ds ++ [p] else ds)) := by
  have hw := walk_directory_sizeQ ih p t rest idx
  rcases hwd : walk_directory ih p t rest idx with ⟨q', idx', err⟩
  rw [hwd] at hw
  simp only [] at hw
  have h1 : sizeQ ((p, t) :: rest) = sizeT t + sizeQ rest := by simp [sizeQ]
  have hpos := sizeT_pos t
  simp only [runQueue, h1]
  have h2 : sizeT t + sizeQ rest = (sizeT t + sizeQ rest - 1) + 1 := by omega
  rw [h2]
  simp only [runQueueFuel, hwd]
  exact runQueueFuel_congr ih _ _ q' idx' _ (by omega) (le_refl _)

/-! ## Remaining shared helpers -/

theorem walkEntries_middle (ih : Bool) (p : String) (e : FSTree)
    (hsk : skipEntry ih e = true) (l1 l2 : List FSTree)
    (q : List (String × FSTree)) (idx : Index) :
    walkEntries ih p (l1 ++ e :: l2) q idx = walkEntries ih p (l1 ++ l2) q idx := by
  rw [walkEntries_append, walkEntries_append]
  rcases hw : walkEntries ih p l1 q idx with ⟨q', idx', err⟩
  cases err with
  | false => exact walkEntries_skip ih p e hsk l2 q' idx'
  | true => rfl

theorem mem_bfsRun_iff_reach (ih : Bool) (rp : String) (l : List FSTree)
    (x : String × List Nat) :
    x ∈ bfsRun ih rp l ↔ x ∈ reachListing ih rp l := by
  simp only [bfsRun, List.mem_append, bfsFiles]
  rw [mem_bfsFilesFuel ih x _ _ (le_refl _), mem_reachListing]

theorem mem_pathsOfIdx_recordAll (files : List (String × List Nat)) (p : String) :
    p ∈ pathsOfIdx (recordAll [] files) ↔ ∃ c, (p, c) ∈ files := by
  rw [mem_pathsOfIdx_iff, countPathIdx_recordAll]
  simp only [countPathIdx, List.map_nil, List.sum_nil, Nat.zero_add]
  rw [List.count_pos_iff, List.mem_map]
  constructor
  · rintro ⟨⟨p', c⟩, hmem, hfst⟩
    simp only [] at hfst
    subst hfst
    exact ⟨c, hmem⟩
  · rintro ⟨c, hmem⟩
    exact ⟨(p, c), hmem, rfl⟩

/-! # The claims -/

/-- C9 (confirmed): refinement equivalence of the streaming hasher — for
every file content, the digest obtained by repeatedly reading into a fixed
4096-byte buffer and feeding each chunk to the incremental SHA-256
accumulator equals the digest of hashing the entire byte contents in one
step. -/
theorem c9_streaming_refinement (content : List Nat) :
    get_file_hash content = wholeFileHash content := by
  unfold get_file_hash wholeFileHash hasherFinal
  rw [foldl_hasherUpdate, flatten_chunks 4096 (by omega) content]
  rfl

/-- C2 (code bug, evaluated): the fingerprint is NOT a fixed-length
64-character string.  `format!("{:x}", byte)` omits leading zeros, so the
content `hello` (whose digest contains the bytes `0x0e` and `0x04`)
renders to 62 characters while the empty file renders to 64. -/
theorem c2_variable_length_fingerprint :
    (get_file_hash helloBytes).length = 62 ∧ (get_file_hash []).length = 64 := by
  exact ⟨rfl, rfl⟩

/-- C3 (code bug, evaluated): the digest-to-string rendering of
`get_file_hash` is not injective — the distinct 32-byte digests
`01 23 ab…` and `12 03 ab…` both render to the string `123abab…`. -/
theorem c3_rendering_not_injective :
    renderDigest collidingDigestA = renderDigest collidingDigestB ∧
      collidingDigestA ≠ collidingDigestB := by
  exact ⟨rfl, by decide⟩

/-- C1 (counterexample): a mid-hash failure does NOT leave the remaining
entries of the directory listing processed: on `abortTree`, whose first
entry `f1` fails mid-hash and whose second entry `f2` is readable, the run
ends with an empty Index — `f2` was never hashed or recorded — and one
diagnostic naming the directory. -/
theorem c1_counterexample :
    check_duplicates false false "r" abortTree = ([], ["r"]) ∧
      abortListing[1]? = some (.file "f2" false true (some helloBytes)) := by
  exact ⟨rfl, rfl⟩

/-- C1 (amended): per-entry failures behave as follows. An `Err` item of
the directory iterator is skipped silently and the rest of the listing is
processed; an entry whose metadata read fails is still processed (only
the hidden check is skipped); but a mid-hash read failure aborts the
remainder of that directory's listing: the eligible files before the
failing entry are recorded and their subdirectories enqueued, everything
after it is dropped, and the caller emits one diagnostic naming the
directory. -/
theorem c1_amended (ih : Bool) (p : String) (l1 l2 : List FSTree)
    (fn : String) (fh fm : Bool) (q : List (String × FSTree)) (idx : Index)
    (c : List Nat) (r : Bool) (rp n : String) (rh rm : Bool)
    (hok : filesOkb ih l1 = true)
    (hsk : (fm && fh && !ih) = false) :
    walkEntries ih p (FSTree.broken :: l2) q idx = walkEntries ih p l2 q idx
    ∧ walkEntries false p (.file fn true false (some c) :: l2) q idx =
        walkEntries false p l2 q (record idx (get_file_hash c) (childPath p fn))
    ∧ walkEntries ih p (l1 ++ .file fn fh fm none :: l2) q idx =
        (q ++ dirsOfListing ih p l1, recordAll idx (filesOfListing ih p l1), true)
    ∧ check_duplicates r ih rp (.dir n rh rm (some (l1 ++ .file fn fh fm none :: l2))) =
        (recordAll [] (filesOfListing ih rp l1), [rp]) := by
  have hbase : ∀ (p' : String) (q' : List (String × FSTree)) (idx' : Index),
      walkEntries ih p' (FSTree.file fn fh fm none :: l2) q' idx' = (q', idx', true) := by
    intro p' q' idx'
    simp [walkEntries, hsk]
  refine ⟨by simp [walkEntries], by simp [walkEntries], ?_, ?_⟩
  · rw [walkEntries_append, walkEntries_ok ih p l1 q idx hok]
    exact hbase p _ _
  · have h1 : walkEntries ih rp (l1 ++ FSTree.file fn fh fm none :: l2) [] [] =
        (dirsOfListing ih rp l1, recordAll [] (filesOfListing ih rp l1), true) := by
      rw [walkEntries_append, walkEntries_ok ih rp l1 [] [] hok]
      simpa using hbase rp _ _
    simp [check_duplicates, walk_directory, h1]

/-- C1 amended witness: concrete instance with an empty prefix and the
readable sibling `f2` dropped. -/
theorem c1_amended_witness :
    ((true && false && !false) = false) ∧
    check_duplicates false false "r"
        (.dir "r" false true (some ([] ++ FSTree.file "f1" false true none ::
          [FSTree.file "f2" false true (some helloBytes)]))) =
      (recordAll [] (filesOfListing false "r" []), ["r"]) :=
  ⟨rfl, (c1_amended false "r" [] [FSTree.file "f2" false true (some helloBytes)]
    "f1" false true [] [] [] false "r" "r" false true rfl rfl).2.2.2⟩

/-- C4 (confirmed): the root is walked exactly once regardless of the
recurse flag; with `recurse=false` the Index is exactly the root's
immediate eligible files (no file of any subdirectory, at any depth);
with `recurse=true` the Index contains exactly the eligible files
reachable by unlimited descent from the root. -/
theorem c4_traversal_completeness (ih : Bool) (rp n : String) (h m : Bool)
    (l : List FSTree) (hcl : cleanLb l = true) :
    check_duplicates false ih rp (.dir n h m (some l)) =
      (recordAll [] (filesOfListing ih rp l), [])
    ∧ ∀ x : String,
        x ∈ pathsOfIdx (check_duplicates true ih rp (.dir n h m (some l))).1 ↔
          ∃ c, (x, c) ∈ reachListing ih rp l := by
  constructor
  · exact check_duplicates_norec ih rp n h m l (filesOkb_of_cleanLb ih l hcl)
  · intro x
    rw [check_duplicates_rec_clean ih rp n h m l hcl]
    simp only []
    rw [mem_pathsOfIdx_recordAll]
    exact exists_congr (fun c => mem_bfsRun_iff_reach ih rp l (x, c))

/-- C4 witness: the section-8 scenario. -/
theorem c4_witness :
    cleanLb demoListing = true ∧
    check_duplicates false false "r" (.dir "r" false true (some demoListing)) =
      (recordAll [] (filesOfListing false "r" demoListing), []) :=
  ⟨by decide, (c4_traversal_completeness false "r" "r" false true demoListing (by decide)).1⟩

/-- C5 (confirmed): an entry carrying the hidden marker (readable metadata
and hidden bit set) is absent from all traversal results when
include-hidden is false — the whole run behaves as if the entry were not
in the listing, so a hidden directory is never enqueued or descended into
and a hidden file is never hashed; when include-hidden is true the entry
is processed normally (a file is hashed and recorded, a directory is
enqueued, regardless of its hidden bit). -/
theorem c5_hidden_filtering (p rp : String) (e : FSTree)
    (hsk : skipEntry false e = true)
    (l1 l2 : List FSTree) (q : List (String × FSTree)) (idx : Index)
    (r : Bool) (n : String) (h m : Bool) :
    walkEntries false p (l1 ++ e :: l2) q idx = walkEntries false p (l1 ++ l2) q idx
    ∧ check_duplicates r false rp (.dir n h m (some (l1 ++ e :: l2))) =
        check_duplicates r false rp (.dir n h m (some (l1 ++ l2)))
    ∧ (∀ (fn : String) (fh fm : Bool) (c : List Nat) (rest : List FSTree),
        walkEntries true p (.file fn fh fm (some c) :: rest) q idx =
          walkEntries true p rest q (record idx (get_file_hash c) (childPath p fn)))
    ∧ (∀ (dn : String) (dh dm : Bool) (dl : Option (List FSTree))
          (rest : List FSTree),
        walkEntries true p (.dir dn dh dm dl :: rest) q idx =
          walkEntries true p rest (q ++ [(childPath p dn, .dir dn dh dm dl)]) idx) := by
  refine ⟨walkEntries_middle false p e hsk l1 l2 q idx, ?_, ?_, ?_⟩
  · have hw := walkEntries_middle false rp e hsk l1 l2 ([] : List (String × FSTree)) []
    simp only [check_duplicates, walk_directory, hw]
  · intro fn fh fm c rest
    simp [walkEntries]
  · intro dn dh dm dl rest
    simp [walkEntries]

/-- C5 witness: a hidden file among visible ones contributes nothing. -/
theorem c5_witness :
    skipEntry false (.file "secret" true true (some helloBytes)) = true ∧
    check_duplicates true false "r"
        (.dir "r" false true (some ([.file "a.txt" false true (some helloBytes)] ++
          FSTree.file "secret" true true (some helloBytes) ::
            [.file "c.txt" false true (some worldBytes)]))) =
      check_duplicates true false "r"
        (.dir "r" false true (some ([.file "a.txt" false true (some helloBytes)] ++
          [.file "c.txt" false true (some worldBytes)]))) :=
  ⟨by decide, (c5_hidden_filtering "r" "r" (.file "secret" true true (some helloBytes))
    (by decide) [.file "a.txt" false true (some helloBytes)]
    [.file "c.txt" false true (some worldBytes)] [] [] true "r" false true).2.1⟩

/-- C6 (confirmed): resilience — an unreadable directory at the head of the
queue contributes exactly one diagnostic naming it and is skipped, the
rest of the queue is drained normally (all files of the remaining, clean
directories are hashed and recorded), and a run whose root directory
cannot be read at all still terminates with an empty Index, whose summary
reports zero unique files and no duplicates. -/
theorem c6_resilience (ih : Bool) (p n : String) (h m : Bool)
    (rest : List (String × FSTree)) (idx : Index) (ds : List String)
    (hcq : cleanDirQb rest = true) (r : Bool) (rp n2 : String) (h2 m2 : Bool) :
    runQueue ih ((p, .dir n h m none) :: rest) idx ds = runQueue ih rest idx (ds ++ [p])
    ∧ (runQueue ih ((p, .dir n h m none) :: rest) idx ds).1 =
        recordAll idx (bfsFiles ih rest)
    ∧ check_duplicates r ih rp (.dir n2 h2 m2 none) = ([], [rp])
    ∧ printSummary [] = (0, false) := by
  have ha : runQueue ih ((p, .dir n h m none) :: rest) idx ds =
      runQueue ih rest idx (ds ++ [p]) := by
    rw [runQueue_cons]
    simp [walk_directory]
  refine ⟨ha, ?_, ?_, rfl⟩
  · rw [ha]
    unfold runQueue
    rw [runQueueFuel_clean ih (sizeQ rest) rest idx (ds ++ [p]) (le_refl _) hcq]
    rfl
  · simp [check_duplicates, walk_directory]

/-- C6 witness: an unreadable subdirectory ahead of a clean one. -/
theorem c6_witness :
    cleanDirQb [("r/sub", FSTree.dir "sub" false true
        (some [.file "d.txt" false true (some helloBytes)]))] = true ∧
    (runQueue false [("r/bad", FSTree.dir "bad" false true none),
        ("r/sub", FSTree.dir "sub" false true
          (some [.file "d.txt" false true (some helloBytes)]))] [] []).1 =
      recordAll [] (bfsFiles false [("r/sub", FSTree.dir "sub" false true
        (some [.file "d.txt" false true (some helloBytes)]))]) :=
  ⟨by decide, (c6_resilience false "r/bad" "bad" false true
    [("r/sub", FSTree.dir "sub" false true
      (some [.file "d.txt" false true (some helloBytes)]))] [] [] (by decide)
    false "r" "r" false true).2.1⟩

/-- C7 (confirmed): Duplicate Index invariant for a clean tree whose
discovered paths are pairwise distinct — the index keys are pairwise
distinct (one list per fingerprint); every path occurs in the whole index
exactly as often as in the breadth-first discovery list, hence at most
once overall; the list stored under any inhabited fingerprint is exactly
the discovery-ordered paths of the files bearing that fingerprint; and
the discovery order is breadth first, root-level files before files of
subdirectories. -/
theorem c7_index_invariant (ih : Bool) (rp n : String) (h m : Bool)
    (l : List FSTree) (hcl : cleanLb l = true)
    (hnd : ((bfsRun ih rp l).map Prod.fst).Nodup) :
    (keysOfIdx (check_duplicates true ih rp (.dir n h m (some l))).1).Nodup
    ∧ (∀ p, countPathIdx (check_duplicates true ih rp (.dir n h m (some l))).1 p =
        ((bfsRun ih rp l).map Prod.fst).count p)
    ∧ (∀ p, countPathIdx (check_duplicates true ih rp (.dir n h m (some l))).1 p ≤ 1)
    ∧ (∀ fp, groupPaths fp (bfsRun ih rp l) ≠ [] →
        lookupIdx (check_duplicates true ih rp (.dir n h m (some l))).1 fp =
          some (groupPaths fp (bfsRun ih rp l)))
    ∧ bfsRun ih rp l = filesOfListing ih rp l ++ bfsFiles ih (dirsOfListing ih rp l) := by
  have hc := check_duplicates_rec_clean ih rp n h m l hcl
  refine ⟨?_, ?_, ?_, ?_, rfl⟩
  · rw [hc]
    exact keysNodup_recordAll _ [] (by simp [keysOfIdx])
  · intro p
    rw [hc, countPathIdx_recordAll]
    simp [countPathIdx]
  · intro p
    rw [hc, countPathIdx_recordAll]
    simp only [countPathIdx, List.map_nil, List.sum_nil, Nat.zero_add]
    exact List.nodup_iff_count_le_one.mp hnd p
  · intro fp hne
    rw [hc]
    exact lookupIdx_recordAll_of_ne _ fp hne

/-- C7 witness: the section-8 scenario with recursion — the `hello` group
is the single key holding the three paths in breadth-first order. -/
theorem c7_witness :
    cleanLb demoListing = true ∧
    lookupIdx (check_duplicates true false "r" (.dir "r" false true (some demoListing))).1
        (get_file_hash helloBytes) =
      some (groupPaths (get_file_hash helloBytes) (bfsRun false "r" demoListing)) :=
  ⟨by decide, (c7_index_invariant false "r" "r" false true demoListing (by decide)
    (by decide)).2.2.2.1 (get_file_hash helloBytes) (by decide)⟩

/-- C8 (confirmed): determinism — any two outcomes of the orchestrator
relation for the same configuration and the same observed directory tree
are equal: the same fingerprint-to-path-list mapping with the same
intra-list ordering and the same diagnostics. -/
theorem c8_determinism (r ih : Bool) (rp : String) (t : FSTree)
    (out1 out2 : Index × List String)
    (h1 : RunRel r ih rp t out1) (h2 : RunRel r ih rp t out2) : out1 = out2 := by
  cases h1 with
  | rootFail q idx hw =>
      cases h2 with
      | rootFail q2 idx2 hw2 =>
          have h3 := hw.symm.trans hw2
          simp only [Prod.mk.injEq] at h3
          rw [h3.2.1]
      | noRecurse q2 idx2 hr2 hw2 =>
          have h3 := hw.symm.trans hw2
          simp at h3
      | withRecurse q2 idx2 out hr2 hw2 hl2 =>
          have h3 := hw.symm.trans hw2
          simp at h3
  | noRecurse q idx hr hw =>
      cases h2 with
      | rootFail q2 idx2 hw2 =>
          have h3 := hw.symm.trans hw2
          simp at h3
      | noRecurse q2 idx2 hr2 hw2 =>
          have h3 := hw.symm.trans hw2
          simp only [Prod.mk.injEq] at h3
          rw [h3.2.1]
      | withRecurse q2 idx2 out hr2 hw2 hl2 =>
          rw [hr] at hr2
          exact absurd hr2 (by simp)
  | withRecurse q idx out hr hw hl =>
      cases h2 with
      | rootFail q2 idx2 hw2 =>
          have h3 := hw.symm.trans hw2
          simp at h3
      | noRecurse q2 idx2 hr2 hw2 =>
          rw [hr] at hr2
          exact absurd hr2 (by simp)
      | withRecurse q2 idx2 out2' hr2 hw2 hl2 =>
          have h3 := hw.symm.trans hw2
          simp only [Prod.mk.injEq] at h3
          obtain ⟨h4, h5, -⟩ := h3
          subst h4; subst h5
          exact loopRel_det ih hl hl2

/-- C8 witness: two derivations of the section-8 run yield equal indices. -/
theorem c8_witness :
    check_duplicates true false "r" demoTree = check_duplicates true false "r" demoTree :=
  c8_determinism true false "r" demoTree _ _ (runRel_total true false "r" demoTree)
    (runRel_total true false "r" demoTree)

/-- C10 (confirmed): the hidden filter is never applied to the root — the
run is insensitive to the root's own hidden bit, and a hidden root is
still walked: its eligible children are hashed and recorded exactly as
for a visible root, even with include-hidden false. -/
theorem c10_root_not_filtered (r ih : Bool) (rp n : String) (m : Bool)
    (li : Option (List FSTree)) (l : List FSTree)
    (hok : filesOkb false l = true) :
    check_duplicates r ih rp (.dir n true m li) =
      check_duplicates r ih rp (.dir n false m li)
    ∧ check_duplicates false false rp (.dir n true m (some l)) =
        (recordAll [] (filesOfListing false rp l), []) := by
  constructor
  · cases li <;> rfl
  · exact check_duplicates_norec false rp n true m l hok

/-- C10 witness: a hidden root over the section-8 listing. -/
theorem c10_witness :
    filesOkb false demoListing = true ∧
    check_duplicates false false "r" (.dir "r" true true (some demoListing)) =
      (recordAll [] (filesOfListing false "r" demoListing), []) :=
  ⟨by decide, (c10_root_not_filtered false false "r" "r" true (some demoListing)
    demoListing (by decide)).2⟩

end Fdup
